import Mathlib

/-!
Verification development for the `Trader` engine of the QuantitativeTrading
repository (`trader.py`).  Machine floats are modelled as `Option ℚ`
(`none` stands for NaN) with NaN-propagating arithmetic; prices, cash and
share counts are rationals; quantities that the source derives through a
square root (standard deviations, Sharpe ratios, z-scores) live in `ℝ`.
-/

/-- A Python float that may be NaN (`none`). -/
abbrev F := Option ℚ

/-- NaN-propagating addition. -/
def fadd : F → F → F
  | some a, some b => some (a + b)
  | _, _ => none

/-- NaN-propagating subtraction. -/
def fsub : F → F → F
  | some a, some b => some (a - b)
  | _, _ => none

/-- NaN-propagating multiplication. -/
def fmul : F → F → F
  | some a, some b => some (a * b)
  | _, _ => none

/-- NaN-propagating division; division by zero is also mapped to `none`
(the engine only ever divides by strictly positive closes). -/
def fdiv : F → F → F
  | some a, some b => if b = 0 then none else some (a / b)
  | _, _ => none

/-- `sum(...)` over a generator of floats, starting from `0`. -/
def sumF (l : List F) : F := l.foldl fadd (some 0)

/-- Association-list lookup with decidable keys (Python `dict` access). -/
def alookup {κ α : Type} [DecidableEq κ] (k : κ) : List (κ × α) → Option α
  | [] => none
  | p :: rest => if p.1 = k then some p.2 else alookup k rest

/-- One date-indexed row of a ticker dataframe: `close`, `eligible`, and one
float column per alpha name. -/
structure Row where
  close : F
  eligible : Bool
  alpha : String → F

/-- The static data of a `Trader` instance: tickers, per-ticker dataframes
(date-indexed row lists), the date range, the cash attribute and the alpha
names (alpha columns are already populated in the rows). -/
structure Trader where
  tickers : List String
  dfs : List (String × List (Int × Row))
  start : Int
  stop : Int
  cash : F
  alphas : List String

/-- `self.dfs[ticker]` (empty frame when the ticker is absent). -/
def dfOf (T : Trader) (t : String) : List (Int × Row) := (alookup t T.dfs).getD []

/-- The row of ticker `t` at date `d`, when `d` is in the frame index. -/
def rowOf (T : Trader) (t : String) (d : Int) : Option Row := alookup d (dfOf T t)

/-- `self.dfs[ticker].loc[date, close]` (NaN when the date is absent). -/
def closeOf (T : Trader) (t : String) (d : Int) : F :=
  match rowOf T t d with
  | some r => r.close
  | none => none

/-- Insert a date into a sorted duplicate-free date list. -/
def insDate (x : Int) : List Int → List Int
  | [] => [x]
  | y :: ys => if x < y then x :: y :: ys else if x = y then y :: ys else y :: insDate x ys

/-- Sorted union of all dates (pandas `Index.union` over the frames). -/
def datesUnion (l : List Int) : List Int := l.foldl (fun acc d => insDate d acc) []

/-- All dates appearing in any frame of `self.dfs`, sorted and de-duplicated. -/
def allDatesOf (T : Trader) : List Int :=
  datesUnion (T.dfs.flatMap (fun p => p.2.map (fun r => r.1)))

/-- `trade_dates`: the union of frame indexes restricted to `[start, end]`. -/
def tradeDatesOf (T : Trader) : List Int :=
  (allDatesOf T).filter (fun d => T.start ≤ d ∧ d ≤ T.stop)

/-- The per-alpha value collection of `generate_signals`: tickers that have a
row on `date` and are `eligible` contribute their alpha value, with a NaN
value replaced by `0`. -/
def collectAlpha (T : Trader) (a : String) (d : Int) : List (String × ℚ) :=
  T.tickers.filterMap (fun t =>
    match rowOf T t d with
    | some r => if r.eligible then some (t, (r.alpha a).getD 0) else none
    | none => none)

/-- `np.mean` of a list of rationals. -/
def qmean (l : List ℚ) : ℚ := l.sum / (l.length : ℚ)

/-- The population variance underlying `np.std` (ddof = 0). -/
def qvar (l : List ℚ) : ℚ := ((l.map (fun x => (x - qmean l) ^ 2)).sum) / (l.length : ℚ)

/-- `np.std`: the square root of the population variance. -/
noncomputable def npstd (l : List ℚ) : ℝ := Real.sqrt ((qvar l : ℚ) : ℝ)

/-- Cross-sectional standardization of one collected alpha map:
`(x - mean) / std` when `std > 0`, otherwise `0` for every ticker. -/
noncomputable def standardizeVals (vals : List (String × ℚ)) : List (String × ℝ) :=
  let vs := vals.map (fun p => p.2)
  if 0 < npstd vs then
    vals.map (fun p => (p.1, ((p.2 : ℝ) - ((qmean vs : ℚ) : ℝ)) / npstd vs))
  else
    vals.map (fun p => (p.1, (0 : ℝ)))

/-- The `standardized` dict: alphas whose collected map is empty are skipped
entirely; the rest are standardized cross-sectionally. -/
noncomputable def standardizedOf (T : Trader) (d : Int) : List (String × List (String × ℝ)) :=
  (T.alphas.map (fun a => (a, collectAlpha T a d))).filterMap
    (fun p => if p.2 = [] then none else some (p.1, standardizeVals p.2))

/-- The `composite_alpha` dict: a ticker qualifies when it is present in
every standardized alpha map; its score is the sum of its standardized
values, iterated in ticker-list order. -/
noncomputable def compositeOf (T : Trader) (d : Int) : List (String × ℝ) :=
  T.tickers.filterMap (fun t =>
    if (standardizedOf T d).all (fun q => (alookup t q.2).isSome) then
      some (t, ((standardizedOf T d).map (fun q => (alookup t q.2).getD 0)).sum)
    else none)

/-- Stable insertion for the ascending-by-score sort: a new element goes
after every element whose key is less than or equal to its own. -/
noncomputable def insBy (p : String × ℝ) : List (String × ℝ) → List (String × ℝ)
  | [] => [p]
  | q :: rest => if p.2 < q.2 then p :: q :: rest else q :: insBy p rest

/-- Stable sort of the composite map by ascending score (Python `sorted`
with `key=composite_alpha.get` is stable). -/
noncomputable def sortByVal (l : List (String × ℝ)) : List (String × ℝ) :=
  l.foldl (fun acc p => insBy p acc) []

/-- The quartile assignment loop of `generate_signals`, carrying the running
index: `if i < short_count: -1 elif i >= n - long_count: 1 else: 0`. -/
def assignFrom (n sc lc : ℕ) : ℕ → List String → List (String × Int)
  | _, [] => []
  | i, t :: rest =>
      (t, if i < sc then (-1 : Int) else if n - lc ≤ i then 1 else 0) ::
        assignFrom n sc lc (i + 1) rest

/-- Signals from the ascending-sorted ticker list, with
`long_count = short_count = max 1 (n / 4)`. -/
def assignSignals (l : List String) : List (String × Int) :=
  assignFrom l.length (max 1 (l.length / 4)) (max 1 (l.length / 4)) 0 l

/-- The result of `generate_signals(date, return_alpha_values=True)`. -/
structure SigResult where
  signals : List (String × Int)
  alphaValues : List (String × ℝ)

/-- `generate_signals` with `return_alpha_values=True`: empty composite set
gives empty signals; otherwise the composite map is sorted ascending and the
quartile assignment is applied. -/
noncomputable def generateSignalsFull (T : Trader) (d : Int) : SigResult :=
  if compositeOf T d = [] then ⟨[], []⟩
  else
    ⟨assignSignals ((sortByVal (compositeOf T d)).map (fun p => p.1)), compositeOf T d⟩

/-- `generate_signals(date)`: the signal map alone. -/
noncomputable def generateSignals (T : Trader) (d : Int) : List (String × Int) :=
  (generateSignalsFull T d).signals

/-- The portfolio dict: ticker to (possibly NaN) share count. -/
abbrev Port := List (String × F)

/-- `self.portfolio.get(ticker, 0)`. -/
def pget (port : Port) (t : String) : F := (alookup t port).getD (some 0)

/-- `self.portfolio[ticker] = v`: update in place, or append a new key. -/
def pset (t : String) (v : F) : Port → Port
  | [] => [(t, v)]
  | p :: rest => if p.1 = t then (t, v) :: rest else p :: pset t v rest

/-- `del self.portfolio[ticker]`: remove the (first) entry with that key. -/
def pdel (t : String) : Port → Port
  | [] => []
  | p :: rest => if p.1 = t then rest else p :: pdel t rest

/-- Tickers with signal LONG (+1), in signal-map order. -/
def longsOf (sig : List (String × Int)) : List String :=
  (sig.filter (fun p => p.2 = 1)).map (fun p => p.1)

/-- Tickers with signal SHORT (-1), in signal-map order. -/
def shortsOf (sig : List (String × Int)) : List String :=
  (sig.filter (fun p => p.2 = -1)).map (fun p => p.1)

/-- The mutable backtest state: cash, portfolio and the equity sequence. -/
structure BTState where
  cash : F
  port : Port
  equity : List F

/-- One side of the rebalance in `manage_portfolio`: for each (priced)
ticker of the side, `target = w * equity / price`, `trade = target -
current`, `cash -= trade * price`, `shares = current + trade`. -/
def tradeStep (T : Trader) (d : Int) (w : ℚ) (equity : F) (t : String) (st : BTState) : BTState :=
  if (rowOf T t d).isSome then
    let price := closeOf T t d
    let target := fdiv (fmul (some w) equity) price
    let current := pget st.port t
    let trade := fsub target current
    { st with cash := fsub st.cash (fmul trade price),
              port := pset t (fadd current trade) st.port }
  else st

def tradePass (T : Trader) (d : Int) (w : ℚ) (equity : F) : List String → BTState → BTState
  | [], st => st
  | t :: rest, st => tradePass T d w equity rest (tradeStep T d w equity t st)

/-- The liquidation loop of `manage_portfolio`: every held ticker that is
neither LONG nor SHORT and is priced today is sold at the close and its
entry removed; unpriced holdings are left untouched. -/
def liqStep (T : Trader) (d : Int) (sig : List (String × Int)) (t : String) (st : BTState) : BTState :=
  if t ∉ longsOf sig ∧ t ∉ shortsOf sig ∧ (rowOf T t d).isSome then
    { st with cash := fadd st.cash (fmul (pget st.port t) (closeOf T t d)),
              port := pdel t st.port }
  else st

def liqAux (T : Trader) (d : Int) (sig : List (String × Int)) : List String → BTState → BTState
  | [], st => st
  | t :: rest, st => liqAux T d sig rest (liqStep T d sig t st)

/-- The liquidation loop iterates over a snapshot of the portfolio keys
taken after the two trade passes. -/
def liqPass (T : Trader) (d : Int) (sig : List (String × Int)) (st : BTState) : BTState :=
  liqAux T d sig (st.port.map (fun p => p.1)) st

/-- `manage_portfolio(signals, date, equity)`: equal weights
`1/n_long` and `-1/n_short` (0 for an empty side), the long pass, the short
pass, then the liquidation loop. -/
def managePortfolio (T : Trader) (sig : List (String × Int)) (d : Int) (equity : F)
    (st : BTState) : BTState :=
  let nl := (longsOf sig).length
  let ns := (shortsOf sig).length
  let wl : ℚ := if 0 < nl then 1 / (nl : ℚ) else 0
  let ws : ℚ := if 0 < ns then -1 / (ns : ℚ) else 0
  liqPass T d sig (tradePass T d ws equity (shortsOf sig) (tradePass T d wl equity (longsOf sig) st))

/-- `available_tickers`: tickers whose frame has a row at `date`. -/
def availOf (T : Trader) (d : Int) : List String :=
  T.tickers.filter (fun t => (rowOf T t d).isSome)

/-- The equity expression of the backtest loop:
`cash + sum(shares[t] * close[t, date] for t in available_tickers)`. -/
def computedEquity (T : Trader) (st : BTState) (d : Int) : F :=
  fadd st.cash (sumF ((availOf T d).map (fun t => fmul (pget st.port t) (closeOf T t d))))

/-- One date of `run_backtest`: skip dates with no available ticker;
otherwise append the computed equity (falling back, when it is NaN, to the
previous recorded value or to the literal `100000`), generate signals and
rebalance. -/
noncomputable def backtestStep (T : Trader) (st : BTState) (d : Int) : BTState :=
  if availOf T d = [] then st
  else
    let e : F :=
      match computedEquity T st d with
      | some q => some q
      | none => (st.equity.getLast?).getD (some 100000)
    managePortfolio T (generateSignals T d) d e { st with equity := st.equity ++ [e] }

/-- `run_backtest()`: fold the per-date step over the trade dates, starting
from the configured cash, an empty portfolio and an empty equity list; inert
when no tickers or frames are configured. -/
noncomputable def runBacktest (T : Trader) : BTState :=
  if T.tickers.isEmpty || T.dfs.isEmpty then ⟨T.cash, [], []⟩
  else (tradeDatesOf T).foldl (backtestStep T) ⟨T.cash, [], []⟩

/-- `pct_change().dropna()` of a float sequence: consecutive ratios minus
one, keeping only the well-defined entries. -/
def dailyReturns (eq : List F) : List ℚ :=
  (eq.zip eq.tail).filterMap (fun p => fsub (fdiv p.2 p.1) (some 1))

/-- The sample variance underlying pandas `Series.std` (ddof = 1). -/
def svar (l : List ℚ) : ℚ := ((l.map (fun x => (x - qmean l) ^ 2)).sum) / ((l.length : ℚ) - 1)

/-- pandas `Series.std`: NaN for fewer than two observations. -/
noncomputable def sampleStd (l : List ℚ) : Option ℝ :=
  if l.length < 2 then none else some (Real.sqrt ((svar l : ℚ) : ℝ))

/-- The statistics of `get_pnl_stats` that the engine consumes downstream
(the report-only series fields are not modelled). -/
structure PnlStats where
  totalReturn : F
  annualizedReturn : Option ℚ
  annualizedVolatility : Option ℝ
  sharpe : ℝ

/-- `get_pnl_stats()`: error when fewer than two equity points exist or the
sequence is entirely NaN; otherwise annualized mean/volatility of the daily
returns and `sharpe = annRet / annVol` when `annVol > 0`, else `0`. -/
noncomputable def getPnlStats (eq : List F) : Except String PnlStats :=
  if eq.length < 2 then Except.error ("Insufficient equity data for stats")
  else if eq.all (fun e => e.isNone) then Except.error ("Equity series is all NaN")
  else
    let rets := dailyReturns eq
    let meanO : Option ℚ := if rets = [] then none else some (qmean rets)
    let annRet : Option ℚ := meanO.map (fun m => m * 252)
    let annVol : Option ℝ := (sampleStd rets).map (fun s => s * Real.sqrt 252)
    let sharpe : ℝ :=
      match annVol, annRet with
      | some v, some r => if 0 < v then ((r * 252 : ℚ) : ℝ) / v else 0
      | _, _ => 0
    Except.ok
      { totalReturn := fmul (fsub (fdiv ((eq.getLast?).getD none) ((eq.head?).getD none)) (some 1)) (some 100)
        annualizedReturn := annRet
        annualizedVolatility := annVol
        sharpe := sharpe }

/-- The dates available strictly before the target date. -/
def validDatesOf (T : Trader) (current : Int) : List Int :=
  (allDatesOf T).filter (fun d => d < current)

/-- The reference day: the last available trading date strictly before the
target date. -/
def refDayOf (T : Trader) (current : Int) : Option Int := (validDatesOf T current).getLast?

/-- Tickers with data on the reference day. -/
def validTickersOf (T : Trader) (ref : Int) : List String :=
  T.tickers.filter (fun t => (rowOf T t ref).isSome)

/-- The sub-backtest loop of `trade_indicator`: for each declared window
(30, 180 and 730 days before the reference day, clipped to the overall
start) run a fresh backtest over `[windowStart, ref]` and keep, for the
windows whose stats succeed, the Sharpe ratio and the signals the window
trader generates at the reference day. -/
noncomputable def periodResultsOf (T : Trader) (ref : Int) :
    List (String × ℝ × List (String × Int)) :=
  ([(("1_month" : String), ref - 30), ("6_months", ref - 180), ("2_years", ref - 730)]).filterMap
    (fun p =>
      let sd := if p.2 < T.start then T.start else p.2
      let pt : Trader := { T with start := sd, stop := ref }
      match getPnlStats (runBacktest pt).equity with
      | Except.error _ => none
      | Except.ok st => some (p.1, st.sharpe, generateSignals pt ref))

/-- The best-period fold of `trade_indicator`: starting from
`best_period = None`, `best_sharpe = -inf`, update whenever a window has a
strictly greater Sharpe ratio. -/
noncomputable def selectBestAux : Option (String × ℝ) → List (String × ℝ) → Option (String × ℝ)
  | best, [] => best
  | none, p :: rest => selectBestAux (some p) rest
  | some b, p :: rest =>
      if b.2 < p.2 then selectBestAux (some p) rest else selectBestAux (some b) rest

/-- Best period and Sharpe over a window-result list, in declaration order. -/
noncomputable def selectBest (l : List (String × ℝ)) : Option (String × ℝ) :=
  selectBestAux none l

/-- The selection actually made by `trade_indicator`. -/
noncomputable def selectBestOf (T : Trader) (ref : Int) : Option (String × ℝ) :=
  selectBest ((periodResultsOf T ref).map (fun q => (q.1, q.2.1)))

/-- Trailing 20-to-30-day volatility used by the sizing step: sample std of
the daily close returns over the last 30 rows up to the reference day when
more than 5 rows exist, default `0.02` otherwise; only tickers priced on the
reference day get an entry. -/
noncomputable def volOf (T : Trader) (ref : Int) (t : String) : Option ℝ :=
  match rowOf T t ref with
  | none => none
  | some _ =>
    let hist := (dfOf T t).filter (fun p => p.1 ≤ ref)
    let hist30 := hist.drop (hist.length - 30)
    if 5 < hist30.length then
      some ((sampleStd (dailyReturns (hist30.map (fun p => p.2.close)))).getD 0)
    else some 0.02

/-- One sized position of a `Recommendation`. -/
structure PositionRec where
  ticker : String
  side : Int
  units : Int
  price : ℚ
  capitalAllocation : ℝ
  allocationPercentage : ℝ
  alphaStrength : ℝ
  volatility : ℝ

/-- The result of a successful `trade_indicator` call (date fields kept as
raw dates; the display-only `strategy` string is not modelled). -/
structure Recommendation where
  bestPeriod : String
  sharpe : ℝ
  longTickers : List String
  shortTickers : List String
  date : Int
  refDate : Int
  cashPosition : ℚ
  positions : List PositionRec

/-- The position list for one side of the recommendation: skip tickers
without a row or with a NaN or non-positive close; `units` is the integer
part of `weight * capital / price`. -/
noncomputable def buildPositions (T : Trader) (ref : Int) (side : Int) (l : List String)
    (weight : String → ℝ) (capital : ℝ) (alphaVals : List (String × ℝ)) : List PositionRec :=
  l.filterMap (fun t =>
    match rowOf T t ref with
    | none => none
    | some r =>
      match r.close with
      | none => none
      | some p =>
        if p ≤ 0 then none
        else some
          { ticker := t, side := side, units := ⌊weight t * capital / (p : ℝ)⌋, price := p,
            capitalAllocation := weight t * capital,
            allocationPercentage := weight t * 50,
            alphaStrength := (alookup t alphaVals).getD 0,
            volatility := (volOf T ref t).getD 0 })

/-- The successful-result construction of `trade_indicator`: signals come
from a fresh `generate_signals` call at the reference day; sizing weights
combine normalized alpha strength and inverse volatility; each non-empty
side is capitalized at half the instance cash. -/
noncomputable def buildRecommendation (T : Trader) (current ref : Int)
    (best : String × ℝ) : Recommendation :=
  let sigRes := generateSignalsFull T ref
  let signals := sigRes.signals
  let alphaVals := sigRes.alphaValues
  let longT := longsOf signals
  let shortT := shortsOf signals
  let nl := longT.length
  let ns := shortT.length
  if nl + ns = 0 then
    { bestPeriod := best.1, sharpe := best.2, longTickers := longT,
      shortTickers := shortT, date := current, refDate := ref,
      cashPosition := 100, positions := [] }
  else
    let eqR : ℝ := (((T.cash.getD 0 : ℚ) : ℝ))
    let maxAlpha : List String → ℝ := fun l =>
      l.foldl (fun m t =>
        match alookup t alphaVals with
        | some v => max m |v|
        | none => m) 0.001
    let maxL := maxAlpha longT
    let maxS := maxAlpha shortT
    let volD : String → ℝ := fun t => (volOf T ref t).getD 0.02
    let rawW : ℝ → String → ℝ := fun mx t =>
      (|(alookup t alphaVals).getD 0.001| / mx) * (0.02 / max (volD t) 0.005)
    let lsum := (longT.map (rawW maxL)).sum
    let ssum := (shortT.map (rawW maxS)).sum
    let lw : String → ℝ := fun t =>
      if 0 < lsum then rawW maxL t / lsum else if 0 < nl then (1 : ℝ) / nl else 0
    let sw : String → ℝ := fun t =>
      if 0 < ssum then rawW maxS t / ssum else if 0 < ns then (1 : ℝ) / ns else 0
    let lcap : ℝ := if 0 < nl then eqR * 0.5 else 0
    let scap : ℝ := if 0 < ns then eqR * 0.5 else 0
    { bestPeriod := best.1, sharpe := best.2, longTickers := longT,
      shortTickers := shortT, date := current, refDate := ref,
      cashPosition := ((T.tickers.length - (nl + ns) : ℤ) : ℚ) / (T.tickers.length : ℚ) * 100,
      positions := buildPositions T ref 1 longT lw lcap alphaVals ++
        buildPositions T ref (-1) shortT sw scap alphaVals }

/-- `trade_indicator(current_date)`: resolve the reference day, run the three
lookback sub-backtests, select the best window by strict Sharpe comparison,
then build the recommendation from the fresh signal pass at the reference
day. -/
noncomputable def tradeIndicator (T : Trader) (current : Int) : Except String Recommendation :=
  if T.tickers.isEmpty || T.dfs.isEmpty then Except.error ("No valid tickers or data.")
  else
    match refDayOf T current with
    | none => Except.error ("No data available before the current date")
    | some ref =>
      if validTickersOf T ref = [] then Except.error ("No ticker data available for the reference day")
      else
        match selectBestOf T ref with
        | none => Except.error ("Could not determine best strategy from backtest results")
        | some best => Except.ok (buildRecommendation T current ref best)
theorem assignFrom_countP_short (n sc lc : ℕ) (l : List String) : ∀ i,
    ((assignFrom n sc lc i l).countP (fun p => decide (p.2 = -1)))
      = min sc (i + l.length) - min sc i := by
  induction l with
  | nil => intro i; simp [assignFrom]
  | cons t rest ih =>
    intro i
    have hstep : ((assignFrom n sc lc i (t :: rest)).countP (fun p => decide (p.2 = -1)))
        = ((assignFrom n sc lc (i + 1) rest).countP (fun p => decide (p.2 = -1)))
          + (if i < sc then 1 else 0) := by
      by_cases h1 : i < sc
      · simp [assignFrom, h1, List.countP_cons]
      · by_cases h2 : n - lc ≤ i <;> simp [assignFrom, h1, h2, List.countP_cons]
    rw [hstep, ih (i + 1), List.length_cons]
    simp only [Nat.min_def]
    split_ifs <;> omega
theorem assignFrom_countP_long (n sc lc : ℕ) (l : List String) : ∀ i,
    ((assignFrom n sc lc i l).countP (fun p => decide (p.2 = 1)))
      = (i + l.length) - max (max sc (n - lc)) i := by
  induction l with
  | nil =>
    intro i
    simp only [assignFrom, List.countP_nil, List.length_nil, Nat.add_zero, Nat.max_def]
    split_ifs <;> omega
  | cons t rest ih =>
    intro i
    have hstep : ((assignFrom n sc lc i (t :: rest)).countP (fun p => decide (p.2 = 1)))
        = ((assignFrom n sc lc (i + 1) rest).countP (fun p => decide (p.2 = 1)))
          + (if sc ≤ i ∧ n - lc ≤ i then 1 else 0) := by
      by_cases h1 : i < sc
      · rw [if_neg (by omega : ¬(sc ≤ i ∧ n - lc ≤ i))]
        simp [assignFrom, h1, List.countP_cons]
      · by_cases h2 : n - lc ≤ i
        · rw [if_pos (⟨by omega, h2⟩ : sc ≤ i ∧ n - lc ≤ i)]
          simp [assignFrom, h1, h2, List.countP_cons]
        · rw [if_neg (by tauto : ¬(sc ≤ i ∧ n - lc ≤ i))]
          simp [assignFrom, h1, h2, List.countP_cons]
    rw [hstep, ih (i + 1), List.length_cons]
    simp only [Nat.max_def]
    split_ifs <;> omega

theorem assignFrom_countP_neutral (n sc lc : ℕ) (l : List String) : ∀ i,
    ((assignFrom n sc lc i l).countP (fun p => decide (p.2 = 0)))
      = min (n - lc) (i + l.length) - max sc i := by
  induction l with
  | nil =>
    intro i
    simp only [assignFrom, List.countP_nil, List.length_nil, Nat.add_zero, Nat.min_def, Nat.max_def]
    split_ifs <;> omega
  | cons t rest ih =>
    intro i
    have hstep : ((assignFrom n sc lc i (t :: rest)).countP (fun p => decide (p.2 = 0)))
        = ((assignFrom n sc lc (i + 1) rest).countP (fun p => decide (p.2 = 0)))
          + (if sc ≤ i ∧ i < n - lc then 1 else 0) := by
      by_cases h1 : i < sc
      · rw [if_neg (by omega : ¬(sc ≤ i ∧ i < n - lc))]
        simp [assignFrom, h1, List.countP_cons]
      · by_cases h2 : n - lc ≤ i
        · rw [if_neg (by omega : ¬(sc ≤ i ∧ i < n - lc))]
          simp [assignFrom, h1, h2, List.countP_cons]
        · rw [if_pos (⟨by omega, by omega⟩ : sc ≤ i ∧ i < n - lc)]
          simp [assignFrom, h1, h2, List.countP_cons]
    rw [hstep, ih (i + 1), List.length_cons]
    simp only [Nat.min_def, Nat.max_def]
    split_ifs <;> omega

/-- A row with a positive close, eligible, and no alpha data. -/
def trivialRow : Row := { close := some 10, eligible := true, alpha := fun _ => none }

/-- A one-ticker trader with no alphas: its composite set on date 0 is the
singleton `A` with score 0. -/
def oneTickerTrader : Trader :=
  { tickers := ["A"], dfs := [("A", [(0, trivialRow)])],
    start := 0, stop := 0, cash := some 100000, alphas := [] }

/-- C2 (counterexample): on a date where the composite set has exactly one
ticker, `generate_signals` signals it SHORT (the `i < short_count` branch is
checked first), not LONG as the claim states. -/
theorem quartile_n1_short_not_long :
    generateSignals oneTickerTrader 0 = [("A", -1)]
    ∧ generateSignals oneTickerTrader 0 ≠ [("A", 1)] := by
  have h : generateSignals oneTickerTrader 0 = [("A", -1)] := by
    simp [generateSignals, generateSignalsFull, compositeOf, standardizedOf, collectAlpha,
      sortByVal, insBy, assignSignals, assignFrom, oneTickerTrader, trivialRow]
  exact ⟨h, by rw [h]; decide⟩

/-- C2 (amended): the bottom `max 1 (n / 4)` tickers of the ascending sort
are SHORT; for `n ≥ 2` the top `max 1 (n / 4)` are LONG and the remainder
NEUTRAL; at the overlapping position of `n = 1` SHORT takes precedence over
LONG, so the single ticker is signaled SHORT. -/
theorem quartile_assignment_counts (l : List String) :
    ((assignSignals l).countP (fun p => decide (p.2 = -1))
        = if l.length = 0 then 0 else max 1 (l.length / 4))
    ∧ (2 ≤ l.length →
        (assignSignals l).countP (fun p => decide (p.2 = 1)) = max 1 (l.length / 4))
    ∧ (2 ≤ l.length →
        (assignSignals l).countP (fun p => decide (p.2 = 0))
          = l.length - 2 * max 1 (l.length / 4))
    ∧ (∀ t, assignSignals [t] = [(t, -1)]) := by
  refine ⟨?_, ?_, ?_, ?_⟩
  · rw [assignSignals, assignFrom_countP_short]
    simp only [Nat.min_def, Nat.max_def, Nat.zero_add]
    split_ifs <;> omega
  · intro h
    rw [assignSignals, assignFrom_countP_long]
    simp only [Nat.max_def, Nat.zero_add]
    split_ifs <;> omega
  · intro h
    rw [assignSignals, assignFrom_countP_neutral]
    simp only [Nat.min_def, Nat.max_def, Nat.zero_add]
    split_ifs <;> omega
  · intro t
    simp [assignSignals, assignFrom]

/-- Concrete check of the amended quartile counts at `n = 8` (2 LONG, 2
SHORT, 4 NEUTRAL) and at `n = 1` (the single ticker is SHORT). -/
theorem quartile_assignment_counts_witness :
    2 ≤ (["a","b","c","d","e","f","g","h"] : List String).length
    ∧ (assignSignals ["a","b","c","d","e","f","g","h"]).countP (fun p => decide (p.2 = 1))
        = max 1 ((["a","b","c","d","e","f","g","h"] : List String).length / 4)
    ∧ ((assignSignals ["a","b","c","d","e","f","g","h"]).countP (fun p => decide (p.2 = -1))
        = (if (["a","b","c","d","e","f","g","h"] : List String).length = 0 then 0
          else max 1 ((["a","b","c","d","e","f","g","h"] : List String).length / 4)))
    ∧ assignSignals ["z"] = [("z", -1)] :=
  ⟨by decide, (quartile_assignment_counts ["a","b","c","d","e","f","g","h"]).2.1 (by decide),
    (quartile_assignment_counts ["a","b","c","d","e","f","g","h"]).1,
    (quartile_assignment_counts ["z"]).2.2.2 "z"⟩

/-! ### Standardization safety (zero cross-sectional std) -/

theorem qvar_nonneg (l : List ℚ) : 0 ≤ qvar l := by
  apply div_nonneg
  · apply List.sum_nonneg
    intro x hx
    rcases List.mem_map.mp hx with ⟨y, _, rfl⟩
    positivity
  · positivity

theorem npstd_nonneg (l : List ℚ) : 0 ≤ npstd l := Real.sqrt_nonneg _

/-- C6: an alpha whose collected values have zero cross-sectional standard
deviation standardizes to 0 for every collected ticker (never NaN or
infinity); with nonzero std, the std is strictly positive and every value is
standardized as `(x - mean) / std`; a NaN raw value of an eligible, priced
ticker is collected as 0 beforehand. -/
theorem standardize_zero_std_safe (vals : List (String × ℚ)) :
    (npstd (vals.map (fun p => p.2)) = 0 →
      standardizeVals vals = vals.map (fun p => (p.1, (0 : ℝ))))
    ∧ (npstd (vals.map (fun p => p.2)) ≠ 0 →
      0 < npstd (vals.map (fun p => p.2))
      ∧ standardizeVals vals = vals.map (fun p =>
          (p.1, ((p.2 : ℝ) - ((qmean (vals.map (fun q => q.2)) : ℚ) : ℝ))
            / npstd (vals.map (fun q => q.2)))))
    ∧ (∀ (T : Trader) (a : String) (d : Int) (t : String) (r : Row),
        t ∈ T.tickers → rowOf T t d = some r → r.eligible = true → r.alpha a = none →
        (t, (0 : ℚ)) ∈ collectAlpha T a d) := by
  refine ⟨?_, ?_, ?_⟩
  · intro h
    have hns : ¬ 0 < npstd (vals.map (fun p => p.2)) := by rw [h]; exact lt_irrefl 0
    simp only [standardizeVals, if_neg hns]
  · intro h
    have hpos : 0 < npstd (vals.map (fun p => p.2)) :=
      lt_of_le_of_ne (npstd_nonneg _) (Ne.symm h)
    refine ⟨hpos, ?_⟩
    simp only [standardizeVals, if_pos hpos]
  · intro T a d t r ht hrow helig halpha
    rw [collectAlpha]
    rw [List.mem_filterMap]
    refine ⟨t, ht, ?_⟩
    rw [hrow]
    simp [helig, halpha]

/-- Concrete check: two identical collected values give zero std and an
all-zero standardization. -/
theorem standardize_zero_std_safe_witness :
    npstd (([(("A" : String), (5 : ℚ)), ("B", 5)]).map (fun p => p.2)) = 0
    ∧ standardizeVals [(("A" : String), (5 : ℚ)), ("B", 5)] = [("A", (0 : ℝ)), ("B", 0)] := by
  have hq : qvar [(5 : ℚ), 5] = 0 := by norm_num [qvar, qmean]
  have h0 : npstd (([(("A" : String), (5 : ℚ)), ("B", 5)]).map (fun p => p.2)) = 0 := by
    simp only [List.map_cons, List.map_nil, npstd, hq]
    simp
  refine ⟨h0, ?_⟩
  have := (standardize_zero_std_safe [(("A" : String), (5 : ℚ)), ("B", 5)]).1 h0
  simpa using this

/-! ### Signals on dates where every alpha collects an empty map -/

theorem assignFrom_map_fst (n sc lc : ℕ) (l : List String) : ∀ i,
    (assignFrom n sc lc i l).map (fun p => p.1) = l := by
  induction l with
  | nil => intro i; simp [assignFrom]
  | cons t rest ih => intro i; simp [assignFrom, ih (i + 1)]

theorem insBy_allzero (p : String × ℝ) (acc : List (String × ℝ)) (hp : p.2 = 0)
    (hacc : ∀ q ∈ acc, q.2 = (0 : ℝ)) : insBy p acc = acc ++ [p] := by
  induction acc with
  | nil => rfl
  | cons q rest ih =>
    rw [insBy]
    rw [if_neg (by rw [hp, hacc q (by simp)]; exact lt_irrefl 0)]
    rw [ih (fun x hx => hacc x (by simp [hx]))]
    simp

theorem sortByVal_allzero (l : List (String × ℝ)) (h : ∀ q ∈ l, q.2 = (0 : ℝ)) :
    sortByVal l = l := by
  have haux : ∀ (m : List (String × ℝ)) (acc : List (String × ℝ)),
      (∀ q ∈ m, q.2 = (0 : ℝ)) → (∀ q ∈ acc, q.2 = (0 : ℝ)) →
      m.foldl (fun acc p => insBy p acc) acc = acc ++ m := by
    intro m
    induction m with
    | nil => intro acc _ _; simp
    | cons p rest ih =>
      intro acc hm hacc
      rw [List.foldl_cons, insBy_allzero p acc (hm p (by simp)) hacc]
      rw [ih (acc ++ [p]) (fun x hx => hm x (by simp [hx]))
        (by intro x hx
            rcases List.mem_append.mp hx with h1 | h1
            · exact hacc x h1
            · simp at h1; rw [h1]; exact hm p (by simp))]
      simp
  exact haux l [] h (by intro q hq; simp at hq)

theorem standardizedOf_empty (T : Trader) (d : Int)
    (h : ∀ a ∈ T.alphas, collectAlpha T a d = []) : standardizedOf T d = [] := by
  rw [standardizedOf, List.filterMap_eq_nil_iff]
  intro p hp
  rcases List.mem_map.mp hp with ⟨a, ha, rfl⟩
  simp [h a ha]

theorem compositeOf_zero (T : Trader) (d : Int) (h : standardizedOf T d = []) :
    compositeOf T d = T.tickers.map (fun t => (t, (0 : ℝ))) := by
  rw [compositeOf, h]
  simp only [List.all_nil, List.map_nil, List.sum_nil, if_pos]
  rw [← List.filterMap_eq_map]
  rfl

/-- C10: on a date where every configured alpha collects an empty
eligible-value map, every ticker of a non-empty ticker list passes the
vacuous all-alphas intersection with composite score 0, and
`generate_signals` assigns LONG/SHORT/NEUTRAL over the tickers in their
original order; the signal map is non-empty and covers all tickers,
including unpriced or ineligible ones. -/
theorem empty_alpha_nonempty_signals (T : Trader) (d : Int)
    (hne : T.tickers ≠ []) (hcol : ∀ a ∈ T.alphas, collectAlpha T a d = []) :
    compositeOf T d = T.tickers.map (fun t => (t, (0 : ℝ)))
    ∧ generateSignals T d = assignSignals T.tickers
    ∧ generateSignals T d ≠ []
    ∧ (generateSignals T d).map (fun p => p.1) = T.tickers := by
  have hstd := standardizedOf_empty T d hcol
  have hcomp := compositeOf_zero T d hstd
  have hsig : generateSignals T d = assignSignals T.tickers := by
    rw [generateSignals, generateSignalsFull]
    rw [if_neg (by rw [hcomp]; simpa using hne)]
    have hsorted : sortByVal (compositeOf T d) = compositeOf T d := by
      apply sortByVal_allzero
      rw [hcomp]
      intro q hq
      rcases List.mem_map.mp hq with ⟨t, _, rfl⟩
      rfl
    rw [hsorted, hcomp]
    show assignSignals ((T.tickers.map (fun t => (t, (0 : ℝ)))).map (fun p => p.1))
        = assignSignals T.tickers
    rw [List.map_map]
    show assignSignals (T.tickers.map (fun t => t)) = assignSignals T.tickers
    simp
  refine ⟨hcomp, hsig, ?_, ?_⟩
  · rw [hsig]
    rcases hl : T.tickers with _ | ⟨t, rest⟩
    · exact absurd hl hne
    · simp [assignSignals, assignFrom]
  · rw [hsig, assignSignals, assignFrom_map_fst]

/-- A row that is priced but not eligible. -/
def ineligibleRow : Row := { close := some 10, eligible := false, alpha := fun _ => none }

/-- A two-ticker trader whose single alpha collects nothing on date 0. -/
def ineligibleTrader : Trader :=
  { tickers := ["A", "B"],
    dfs := [("A", [(0, ineligibleRow)]), ("B", [(0, ineligibleRow)])],
    start := 0, stop := 0, cash := some 100000, alphas := ["m"] }

/-- Concrete check: with one alpha collecting nothing, both tickers are
still signaled, in original order. -/
theorem empty_alpha_nonempty_signals_witness :
    ineligibleTrader.tickers ≠ []
    ∧ (∀ a ∈ ineligibleTrader.alphas, collectAlpha ineligibleTrader a 0 = [])
    ∧ generateSignals ineligibleTrader 0 = assignSignals ineligibleTrader.tickers
    ∧ generateSignals ineligibleTrader 0 ≠ [] :=
  have h1 : ineligibleTrader.tickers ≠ [] := by decide
  have h2 : ∀ a ∈ ineligibleTrader.alphas, collectAlpha ineligibleTrader a 0 = [] := by decide
  ⟨h1, h2, (empty_alpha_nonempty_signals ineligibleTrader 0 h1 h2).2.1,
    (empty_alpha_nonempty_signals ineligibleTrader 0 h1 h2).2.2.1⟩

/-! ### The equity bookkeeping of the backtest loop -/

theorem tradePass_equity (T : Trader) (d : Int) (w : ℚ) (e : F) :
    ∀ (l : List String) (st : BTState), (tradePass T d w e l st).equity = st.equity := by
  intro l
  induction l with
  | nil => intro st; rfl
  | cons t rest ih =>
    intro st
    rw [tradePass, ih, tradeStep]
    split_ifs <;> rfl

theorem liqAux_equity (T : Trader) (d : Int) (sig : List (String × Int)) :
    ∀ (l : List String) (st : BTState), (liqAux T d sig l st).equity = st.equity := by
  intro l
  induction l with
  | nil => intro st; rfl
  | cons t rest ih =>
    intro st
    rw [liqAux, ih, liqStep]
    split_ifs <;> rfl

theorem managePortfolio_equity (T : Trader) (sig : List (String × Int)) (d : Int)
    (e : F) (st : BTState) : (managePortfolio T sig d e st).equity = st.equity := by
  rw [managePortfolio, liqPass, liqAux_equity, tradePass_equity, tradePass_equity]

theorem backtestStep_equity (T : Trader) (st : BTState) (d : Int) (hav : availOf T d ≠ []) :
    (backtestStep T st d).equity = st.equity ++
      [match computedEquity T st d with
       | some q => some q
       | none => (st.equity.getLast?).getD (some 100000)] := by
  rw [backtestStep, if_neg hav]
  exact managePortfolio_equity _ _ _ _ _

/-- C1: on a date with at least one available ticker, whenever the equity
expression `cash + sum(shares * close over available tickers)` is
well-defined (not NaN), exactly that value is appended to the equity
sequence. -/
theorem equity_append_matches_formula (T : Trader) (st : BTState) (d : Int) (q : ℚ)
    (hav : availOf T d ≠ []) (hq : computedEquity T st d = some q) :
    (backtestStep T st d).equity = st.equity ++ [some q] := by
  rw [backtestStep_equity T st d hav, hq]

/-- Concrete check of the recorded equity value on a one-ticker date. -/
theorem equity_append_matches_formula_witness :
    availOf oneTickerTrader 0 ≠ []
    ∧ computedEquity oneTickerTrader ⟨some 100000, [], []⟩ 0 = some 100000
    ∧ (backtestStep oneTickerTrader ⟨some 100000, [], []⟩ 0).equity = [some 100000] := by
  have hav : availOf oneTickerTrader 0 ≠ [] := by decide
  have hq : computedEquity oneTickerTrader ⟨some 100000, [], []⟩ 0 = some 100000 := by
    simp [computedEquity, availOf, sumF, fadd, fmul, pget, alookup, rowOf, dfOf, closeOf,
      oneTickerTrader, trivialRow]
  refine ⟨hav, hq, ?_⟩
  have := equity_append_matches_formula oneTickerTrader ⟨some 100000, [], []⟩ 0 100000 hav hq
  simpa using this

/-- C8 (amended): when the computed equity is NaN, the recorded value is the
previous recorded value, or the literal `100000` when no previous value
exists (not the configured starting cash). -/
theorem nan_equity_fallback (T : Trader) (st : BTState) (d : Int)
    (hav : availOf T d ≠ []) (hn : computedEquity T st d = none) :
    (backtestStep T st d).equity
      = st.equity ++ [(st.equity.getLast?).getD (some 100000)] := by
  rw [backtestStep_equity T st d hav, hn]

/-- A one-ticker trader whose close is NaN on its only date and whose
configured cash is 50000. -/
def nanCloseTrader : Trader :=
  { tickers := ["A"],
    dfs := [("A", [(0, { close := none, eligible := false, alpha := fun _ => none })])],
    start := 0, stop := 0, cash := some 50000, alphas := [] }

/-- C8 (counterexample): with starting cash 50000 and a NaN equity on the
first date, `run_backtest` records the literal 100000, not the configured
starting cash. -/
theorem nan_fallback_not_starting_cash :
    (runBacktest nanCloseTrader).equity = [some 100000]
    ∧ nanCloseTrader.cash = some 50000
    ∧ (100000 : ℚ) ≠ 50000 := by
  have hdates : tradeDatesOf nanCloseTrader = [0] := by decide
  have hav : availOf nanCloseTrader 0 ≠ [] := by decide
  have hn : computedEquity nanCloseTrader ⟨some 50000, [], []⟩ 0 = none := by decide
  have hrun : runBacktest nanCloseTrader
      = backtestStep nanCloseTrader ⟨some 50000, [], []⟩ 0 := by
    rw [runBacktest, if_neg (by decide), hdates]
    rfl
  refine ⟨?_, rfl, by norm_num⟩
  rw [hrun, backtestStep_equity nanCloseTrader ⟨some 50000, [], []⟩ 0 hav, hn]
  rfl

/-! ### Association-list and NaN-arithmetic lemmas for the rebalance passes -/

theorem fadd_right_comm (c x y : F) : fadd (fadd c x) y = fadd (fadd c y) x := by
  rcases c with _ | c <;> rcases x with _ | x <;> rcases y with _ | y <;>
    simp [fadd] <;> ring

theorem alookup_pdel_ne (u t : String) (p : Port) (h : u ≠ t) :
    alookup u (pdel t p) = alookup u p := by
  induction p with
  | nil => rfl
  | cons q rest ih =>
    by_cases hqt : q.1 = t
    · have hqu : ¬ q.1 = u := by rw [hqt]; exact fun he => h he.symm
      simp [pdel, alookup, hqt, hqu, h, Ne.symm h]
    · by_cases hqu : q.1 = u <;> simp [pdel, alookup, hqt, hqu, ih, h, Ne.symm h]

theorem alookup_pset_ne (t u : String) (v : F) (p : Port) (h : u ≠ t) :
    alookup t (pset u v p) = alookup t p := by
  induction p with
  | nil => simp [pset, alookup, h]
  | cons q rest ih =>
    by_cases hqu : q.1 = u
    · have hqt : ¬ q.1 = t := by rw [hqu]; exact h
      simp [pset, alookup, hqu, hqt, h, Ne.symm h]
    · by_cases hqt : q.1 = t <;> simp [pset, alookup, hqu, hqt, ih, h, Ne.symm h]

theorem pset_pdel_comm (t u : String) (v : F) (p : Port) (h : u ≠ t) :
    pset u v (pdel t p) = pdel t (pset u v p) := by
  induction p with
  | nil => simp [pdel, pset, h]
  | cons q rest ih =>
    by_cases hqt : q.1 = t
    · have hqu : ¬ q.1 = u := by
        intro he
        exact h (by rw [← he]; exact hqt)
      simp [pdel, pset, hqt, hqu, h, Ne.symm h]
    · by_cases hqu : q.1 = u
      · simp [pdel, pset, hqt, hqu, h, Ne.symm h]
      · simp [pdel, pset, hqt, hqu, ih, h, Ne.symm h]

theorem pdel_pdel_comm (t u : String) (p : Port) (h : u ≠ t) :
    pdel u (pdel t p) = pdel t (pdel u p) := by
  induction p with
  | nil => rfl
  | cons q rest ih =>
    by_cases hqt : q.1 = t
    · have hqu : ¬ q.1 = u := by rw [hqt]; exact fun he => h he.symm
      simp [pdel, hqt, hqu, h, Ne.symm h]
    · by_cases hqu : q.1 = u
      · simp [pdel, hqt, hqu, h, Ne.symm h]
      · simp [pdel, hqt, hqu, ih, h, Ne.symm h]

/-- Frame relation: `s2` is `s1` with the entry of `t` (holding `sh`)
removed from the portfolio, all else equal. -/
def RelT (t : String) (sh : F) (s1 s2 : BTState) : Prop :=
  alookup t s1.port = some sh ∧ s2.port = pdel t s1.port ∧ s2.cash = s1.cash

/-- Shift relation: equal portfolios, cash differing by `x`. -/
def RelC (x : F) (s1 s2 : BTState) : Prop :=
  s1.port = s2.port ∧ s1.cash = fadd s2.cash x

theorem tradeStep_relT (T : Trader) (d : Int) (w : ℚ) (e : F) (t : String) (sh : F)
    (u : String) (hut : u ≠ t) (s1 s2 : BTState) (h : RelT t sh s1 s2) :
    RelT t sh (tradeStep T d w e u s1) (tradeStep T d w e u s2) := by
  rcases h with ⟨h1, h2, h3⟩
  have hpg : pget (pdel t s1.port) u = pget s1.port u := by
    rw [pget, pget, alookup_pdel_ne u t _ hut]
  simp only [tradeStep]
  split_ifs with hrow
  · refine ⟨?_, ?_, ?_⟩
    · rw [alookup_pset_ne t u _ _ hut]; exact h1
    · simp only [h2, hpg]
      rw [pset_pdel_comm t u _ _ hut]
    · simp only [h2, hpg, h3]
  · exact ⟨h1, h2, h3⟩

theorem tradePass_relT (T : Trader) (d : Int) (w : ℚ) (e : F) (t : String) (sh : F) :
    ∀ (l : List String), t ∉ l → ∀ (s1 s2 : BTState), RelT t sh s1 s2 →
      RelT t sh (tradePass T d w e l s1) (tradePass T d w e l s2) := by
  intro l
  induction l with
  | nil => intro _ s1 s2 h; exact h
  | cons u rest ih =>
    intro hnl s1 s2 h
    rw [tradePass, tradePass]
    have hut : u ≠ t := fun he => hnl (by rw [he]; exact List.mem_cons_self t rest)
    exact ih (fun hm => hnl (List.mem_cons_of_mem u hm)) _ _
      (tradeStep_relT T d w e t sh u hut s1 s2 h)

theorem liqStep_relT (T : Trader) (d : Int) (sig : List (String × Int)) (t : String)
    (sh : F) (u : String) (hut : u ≠ t) (s1 s2 : BTState) (h : RelT t sh s1 s2) :
    RelT t sh (liqStep T d sig u s1) (liqStep T d sig u s2) := by
  rcases h with ⟨h1, h2, h3⟩
  have hpg : pget (pdel t s1.port) u = pget s1.port u := by
    rw [pget, pget, alookup_pdel_ne u t _ hut]
  simp only [liqStep]
  split_ifs with hcond
  · refine ⟨?_, ?_, ?_⟩
    · rw [alookup_pdel_ne t u _ (Ne.symm hut)]; exact h1
    · rw [h2, pdel_pdel_comm t u _ hut]
    · simp only [h2, hpg, h3]
  · exact ⟨h1, h2, h3⟩

theorem liqAux_relT (T : Trader) (d : Int) (sig : List (String × Int)) (t : String) (sh : F) :
    ∀ (l : List String), t ∉ l → ∀ (s1 s2 : BTState), RelT t sh s1 s2 →
      RelT t sh (liqAux T d sig l s1) (liqAux T d sig l s2) := by
  intro l
  induction l with
  | nil => intro _ s1 s2 h; exact h
  | cons u rest ih =>
    intro hnl s1 s2 h
    rw [liqAux, liqAux]
    have hut : u ≠ t := fun he => hnl (by rw [he]; exact List.mem_cons_self t rest)
    exact ih (fun hm => hnl (List.mem_cons_of_mem u hm)) _ _
      (liqStep_relT T d sig t sh u hut s1 s2 h)

theorem liqStep_relC (T : Trader) (d : Int) (sig : List (String × Int)) (x : F)
    (u : String) (s1 s2 : BTState) (h : RelC x s1 s2) :
    RelC x (liqStep T d sig u s1) (liqStep T d sig u s2) := by
  rcases h with ⟨h1, h2⟩
  simp only [liqStep]
  split_ifs with hcond
  · exact ⟨by rw [h1], by rw [h1, h2, fadd_right_comm]⟩
  · exact ⟨h1, h2⟩

theorem liqAux_relC (T : Trader) (d : Int) (sig : List (String × Int)) (x : F) :
    ∀ (l : List String) (s1 s2 : BTState), RelC x s1 s2 →
      RelC x (liqAux T d sig l s1) (liqAux T d sig l s2) := by
  intro l
  induction l with
  | nil => intro s1 s2 h; exact h
  | cons u rest ih =>
    intro s1 s2 h
    rw [liqAux, liqAux]
    exact ih _ _ (liqStep_relC T d sig x u s1 s2 h)

theorem liqAux_append (T : Trader) (d : Int) (sig : List (String × Int)) :
    ∀ (a b : List String) (st : BTState),
      liqAux T d sig (a ++ b) st = liqAux T d sig b (liqAux T d sig a st) := by
  intro a
  induction a with
  | nil => intro b st; rfl
  | cons u rest ih => intro b st; rw [List.cons_append, liqAux, liqAux, ih]

theorem pset_keys (u : String) (v : F) (p : Port) :
    (pset u v p).map (fun q => q.1)
      = if u ∈ p.map (fun q => q.1) then p.map (fun q => q.1)
        else p.map (fun q => q.1) ++ [u] := by
  induction p with
  | nil => simp [pset]
  | cons q rest ih =>
    by_cases hqu : q.1 = u
    · simp [pset, hqu]
    · simp only [pset, if_neg hqu, List.map_cons, ih]
      by_cases hm : u ∈ rest.map (fun q => q.1)
      · rw [if_pos hm, if_pos (by simp [hm])]
      · rw [if_neg hm, if_neg (by simp [hm]; exact fun he => hqu he.symm)]
        simp

theorem pset_keys_nodup (u : String) (v : F) (p : Port)
    (h : (p.map (fun q => q.1)).Nodup) : ((pset u v p).map (fun q => q.1)).Nodup := by
  rw [pset_keys]
  split_ifs with hm
  · exact h
  · simp only [List.nodup_append, List.nodup_cons]
    exact ⟨h, by simp, by intro a ha hb; simp at hb; rw [hb] at ha; exact hm ha⟩

theorem tradeStep_keys_nodup (T : Trader) (d : Int) (w : ℚ) (e : F) (u : String)
    (st : BTState) (h : (st.port.map (fun q => q.1)).Nodup) :
    (((tradeStep T d w e u st).port).map (fun q => q.1)).Nodup := by
  rw [tradeStep]
  split_ifs with hrow
  · exact pset_keys_nodup u _ _ h
  · exact h

theorem tradePass_keys_nodup (T : Trader) (d : Int) (w : ℚ) (e : F) :
    ∀ (l : List String) (st : BTState), (st.port.map (fun q => q.1)).Nodup →
      (((tradePass T d w e l st).port).map (fun q => q.1)).Nodup := by
  intro l
  induction l with
  | nil => intro st h; exact h
  | cons u rest ih =>
    intro st h
    rw [tradePass]
    exact ih _ (tradeStep_keys_nodup T d w e u st h)

theorem alookup_split (t : String) (p : Port) (sh : F) (h : alookup t p = some sh) :
    ∃ P1 P2, p = P1 ++ (t, sh) :: P2 ∧ ∀ q ∈ P1, q.1 ≠ t := by
  induction p with
  | nil => simp [alookup] at h
  | cons q rest ih =>
    by_cases hq : q.1 = t
    · rw [alookup, if_pos hq] at h
      refine ⟨[], rest, ?_, by simp⟩
      have : q = (t, sh) := by
        rcases q with ⟨q1, q2⟩
        simp at hq h
        rw [hq, h]
      rw [this]
      rfl
    · rw [alookup, if_neg hq] at h
      rcases ih h with ⟨P1, P2, hp, hP1⟩
      refine ⟨q :: P1, P2, by rw [List.cons_append, hp], ?_⟩
      intro x hx
      rcases List.mem_cons.mp hx with h1 | h1
      · rw [h1]; exact hq
      · exact hP1 x h1

theorem pdel_split (t : String) (sh : F) (P1 P2 : Port) (h : ∀ q ∈ P1, q.1 ≠ t) :
    pdel t (P1 ++ (t, sh) :: P2) = P1 ++ P2 := by
  induction P1 with
  | nil => simp [pdel]
  | cons q rest ih =>
    rw [List.cons_append, pdel, if_neg (h q (by simp))]
    rw [ih (fun x hx => h x (by simp [hx]))]
    rfl

/-- C7: a held ticker `t` that is signaled neither LONG nor SHORT is, when
priced on the date, fully liquidated by `manage_portfolio` — the resulting
state equals the run without the holding except that cash gains exactly
`shares * close` — and, when unpriced, carried untouched: its entry is
unchanged and the cash is exactly that of the run without the holding. -/
theorem liquidation_frame_effect (T : Trader) (sig : List (String × Int)) (d : Int)
    (e c : F) (port : Port) (eqs : List F) (t : String) (sh : F)
    (hnd : (port.map (fun q => q.1)).Nodup)
    (hsh : alookup t port = some sh)
    (hlong : t ∉ longsOf sig) (hshort : t ∉ shortsOf sig) :
    ((rowOf T t d).isSome →
      (managePortfolio T sig d e ⟨c, port, eqs⟩).port
          = (managePortfolio T sig d e ⟨c, pdel t port, eqs⟩).port
      ∧ (managePortfolio T sig d e ⟨c, port, eqs⟩).cash
          = fadd (managePortfolio T sig d e ⟨c, pdel t port, eqs⟩).cash
              (fmul sh (closeOf T t d)))
    ∧ (rowOf T t d = none →
      alookup t (managePortfolio T sig d e ⟨c, port, eqs⟩).port = some sh
      ∧ pdel t (managePortfolio T sig d e ⟨c, port, eqs⟩).port
          = (managePortfolio T sig d e ⟨c, pdel t port, eqs⟩).port
      ∧ (managePortfolio T sig d e ⟨c, port, eqs⟩).cash
          = (managePortfolio T sig d e ⟨c, pdel t port, eqs⟩).cash) := by
  obtain ⟨wl, ws, hmp⟩ : ∃ wl ws : ℚ, ∀ s : BTState,
      managePortfolio T sig d e s
        = liqPass T d sig
            (tradePass T d ws e (shortsOf sig) (tradePass T d wl e (longsOf sig) s)) :=
    ⟨_, _, fun s => rfl⟩
  have hrel0 : RelT t sh ⟨c, port, eqs⟩ ⟨c, pdel t port, eqs⟩ := ⟨hsh, rfl, rfl⟩
  have hrelS := tradePass_relT T d ws e t sh (shortsOf sig) hshort _ _
    (tradePass_relT T d wl e t sh (longsOf sig) hlong _ _ hrel0)
  have hndS : (((tradePass T d ws e (shortsOf sig)
      (tradePass T d wl e (longsOf sig) (⟨c, port, eqs⟩ : BTState))).port).map
        (fun q => q.1)).Nodup :=
    tradePass_keys_nodup T d ws e _ _ (tradePass_keys_nodup T d wl e _ _ hnd)
  rw [hmp ⟨c, port, eqs⟩, hmp ⟨c, pdel t port, eqs⟩]
  set S1 := tradePass T d ws e (shortsOf sig)
    (tradePass T d wl e (longsOf sig) (⟨c, port, eqs⟩ : BTState)) with hS1def
  set S2 := tradePass T d ws e (shortsOf sig)
    (tradePass T d wl e (longsOf sig) (⟨c, pdel t port, eqs⟩ : BTState)) with hS2def
  rcases hrelS with ⟨hS1t, hS2p, hS2c⟩
  rcases alookup_split t S1.port sh hS1t with ⟨P1, P2, hPsplit, hP1t⟩
  have hK : S1.port.map (fun q => q.1)
      = P1.map (fun q => q.1) ++ t :: P2.map (fun q => q.1) := by
    rw [hPsplit]; simp
  have htK1 : t ∉ P1.map (fun q => q.1) := by
    intro hm
    rcases List.mem_map.mp hm with ⟨q, hq, hq1⟩
    exact hP1t q hq hq1
  have htK2 : t ∉ P2.map (fun q => q.1) := by
    have hndK := hndS
    rw [hK] at hndK
    exact (List.nodup_cons.mp (List.nodup_append.mp hndK).2.1).1
  have hS2port : S2.port = P1 ++ P2 := by
    rw [hS2p, hPsplit, pdel_split t sh P1 P2 hP1t]
  have hL1 : liqPass T d sig S1
      = liqAux T d sig (P1.map (fun q => q.1) ++ t :: P2.map (fun q => q.1)) S1 := by
    rw [liqPass, hK]
  have hL2 : liqPass T d sig S2
      = liqAux T d sig (P1.map (fun q => q.1) ++ P2.map (fun q => q.1)) S2 := by
    rw [liqPass, hS2port]
    simp
  rw [hL1, hL2, liqAux_append, liqAux_append]
  set A1 := liqAux T d sig (P1.map (fun q => q.1)) S1 with hA1def
  set A2 := liqAux T d sig (P1.map (fun q => q.1)) S2 with hA2def
  obtain ⟨hA1t, hA2p, hA2c⟩ :=
    liqAux_relT T d sig t sh (P1.map (fun q => q.1)) htK1 S1 S2 ⟨hS1t, hS2p, hS2c⟩
  constructor
  · intro hrow
    rw [liqAux]
    have hpgt : pget A1.port t = sh := by rw [pget, hA1t]; rfl
    have hstep : liqStep T d sig t A1
        = ⟨fadd A1.cash (fmul sh (closeOf T t d)), pdel t A1.port, A1.equity⟩ := by
      rw [liqStep, if_pos ⟨hlong, hshort, hrow⟩, hpgt]
    rw [hstep]
    have hrelC : RelC (fmul sh (closeOf T t d))
        (⟨fadd A1.cash (fmul sh (closeOf T t d)), pdel t A1.port, A1.equity⟩ : BTState) A2 :=
      ⟨hA2p.symm, by rw [hA2c]⟩
    obtain ⟨f1, f2⟩ := liqAux_relC T d sig (fmul sh (closeOf T t d))
      (P2.map (fun q => q.1)) _ A2 hrelC
    exact ⟨f1, f2⟩
  · intro hrow
    rw [liqAux]
    have hstep : liqStep T d sig t A1 = A1 := by
      rw [liqStep, if_neg]
      intro hc
      rw [hrow] at hc
      simpa using hc.2.2
    rw [hstep]
    obtain ⟨f1, f2, f3⟩ :=
      liqAux_relT T d sig t sh (P2.map (fun q => q.1)) htK2 A1 A2 ⟨hA1t, hA2p, hA2c⟩
    exact ⟨f1, f2.symm, f3.symm⟩

/-- A three-ticker trader used to exercise the liquidation frame effect. -/
def liqTrader : Trader :=
  { tickers := ["A", "B", "C"],
    dfs := [("A", [(0, trivialRow)]), ("B", [(0, trivialRow)]),
            ("C", [(0, { close := some 5, eligible := true, alpha := fun _ => none })])],
    start := 0, stop := 0, cash := some 100, alphas := [] }

/-- Concrete check of the liquidation round trip: a held, unsignaled, priced
ticker is removed and its `shares * close` is credited to cash. -/
theorem liquidation_frame_effect_witness :
    (rowOf liqTrader "C" 0).isSome
    ∧ (managePortfolio liqTrader [("A", 1), ("B", -1)] 0 (some 100)
          ⟨some 100, [("C", some 3)], []⟩).port
        = (managePortfolio liqTrader [("A", 1), ("B", -1)] 0 (some 100)
          ⟨some 100, pdel "C" [("C", some 3)], []⟩).port
    ∧ (managePortfolio liqTrader [("A", 1), ("B", -1)] 0 (some 100)
          ⟨some 100, [("C", some 3)], []⟩).cash
        = fadd (managePortfolio liqTrader [("A", 1), ("B", -1)] 0 (some 100)
            ⟨some 100, pdel "C" [("C", some 3)], []⟩).cash
            (fmul (some 3) (closeOf liqTrader "C" 0)) := by
  have h := (liquidation_frame_effect liqTrader [("A", 1), ("B", -1)] 0 (some 100) (some 100)
    [("C", some 3)] [] "C" (some 3) (by decide) (by decide) (by decide) (by decide)).1
    (by decide)
  exact ⟨by decide, h.1, h.2⟩

/-! ### Characterization of the equal-weight rebalance passes -/

theorem fadd_assoc (a b c : F) : fadd (fadd a b) c = fadd a (fadd b c) := by
  rcases a with _ | a <;> rcases b with _ | b <;> rcases c with _ | c <;>
    simp [fadd] <;> ring

theorem fadd_zero_left (x : F) : fadd (some 0) x = x := by
  rcases x with _ | x <;> simp [fadd]

theorem fsub_zero_right (c : F) : fsub c (some 0) = c := by
  rcases c with _ | c <;> simp [fsub]

theorem fsub_fsub (c x y : F) : fsub (fsub c x) y = fsub c (fadd x y) := by
  rcases c with _ | c <;> rcases x with _ | x <;> rcases y with _ | y <;>
    simp [fsub, fadd] <;> ring

theorem foldl_fadd_shift (xs : List F) : ∀ a b : F,
    xs.foldl fadd (fadd a b) = fadd a (xs.foldl fadd b) := by
  induction xs with
  | nil => intro a b; rfl
  | cons x rest ih =>
    intro a b
    rw [List.foldl_cons, List.foldl_cons, fadd_assoc, ih]

theorem sumF_cons (x : F) (xs : List F) : sumF (x :: xs) = fadd x (sumF xs) := by
  rw [sumF, List.foldl_cons, fadd_zero_left, sumF]
  have : xs.foldl fadd x = xs.foldl fadd (fadd x (some 0)) := by
    rcases x with _ | x <;> simp [fadd]
  rw [this, foldl_fadd_shift]

theorem alookup_pset_self (t : String) (v : F) (p : Port) :
    alookup t (pset t v p) = some v := by
  induction p with
  | nil => simp [pset, alookup]
  | cons q rest ih =>
    by_cases hq : q.1 = t
    · simp [pset, alookup, hq]
    · simp [pset, alookup, hq, ih]

theorem tradePass_frame (T : Trader) (d : Int) (w : ℚ) (e : F) :
    ∀ (l : List String) (st : BTState) (u : String), u ∉ l →
      alookup u (tradePass T d w e l st).port = alookup u st.port := by
  intro l
  induction l with
  | nil => intro st u _; rfl
  | cons t rest ih =>
    intro st u hu
    have hut : t ≠ u := fun he => hu (by rw [← he]; exact List.mem_cons_self t rest)
    rw [tradePass, ih _ _ (fun hm => hu (List.mem_cons_of_mem t hm))]
    rw [tradeStep]
    split_ifs with hrow
    · exact alookup_pset_ne u t _ _ hut
    · rfl

theorem tradePass_target (T : Trader) (d : Int) (w : ℚ) (e : F) :
    ∀ (l : List String), l.Nodup → ∀ (st : BTState) (t : String), t ∈ l →
      (rowOf T t d).isSome →
      alookup t (tradePass T d w e l st).port
        = some (fadd (pget st.port t)
            (fsub (fdiv (fmul (some w) e) (closeOf T t d)) (pget st.port t))) := by
  intro l
  induction l with
  | nil => intro _ st t hm; exact absurd hm (List.not_mem_nil t)
  | cons u rest ih =>
    intro hnd st t hm hrow
    rcases List.mem_cons.mp hm with h1 | h1
    · subst h1
      rw [tradePass, tradePass_frame T d w e rest _ t ((List.nodup_cons.mp hnd).1)]
      rw [tradeStep, if_pos hrow]
      exact alookup_pset_self t _ _
    · have htu : t ≠ u := fun he => (List.nodup_cons.mp hnd).1 (he ▸ h1)
      rw [tradePass, ih (List.nodup_cons.mp hnd).2 _ t h1 hrow]
      have hpg : pget (tradeStep T d w e u st).port t = pget st.port t := by
        rw [tradeStep]
        split_ifs with hr
        · simp only [pget]
          rw [alookup_pset_ne t u _ _ (Ne.symm htu)]
        · rfl
      rw [hpg]

theorem tradePass_cash (T : Trader) (d : Int) (w : ℚ) (e : F) :
    ∀ (l : List String), l.Nodup → ∀ (st : BTState),
      (tradePass T d w e l st).cash
        = fsub st.cash (sumF (l.map (fun t =>
            if (rowOf T t d).isSome then
              fmul (fsub (fdiv (fmul (some w) e) (closeOf T t d)) (pget st.port t))
                (closeOf T t d)
            else some 0))) := by
  intro l
  induction l with
  | nil => intro _ st; rw [tradePass]; simp [sumF, fsub_zero_right]
  | cons u rest ih =>
    intro hnd st
    rw [tradePass, List.map_cons, sumF_cons, ih (List.nodup_cons.mp hnd).2]
    have hpg : ∀ t ∈ rest, pget (tradeStep T d w e u st).port t = pget st.port t := by
      intro t htr
      have htu : t ≠ u := fun he => (List.nodup_cons.mp hnd).1 (he ▸ htr)
      rw [tradeStep]
      split_ifs with hr
      · simp only [pget]
        rw [alookup_pset_ne t u _ _ (Ne.symm htu)]
      · rfl
    have hmap : rest.map (fun t =>
        if (rowOf T t d).isSome then
          fmul (fsub (fdiv (fmul (some w) e) (closeOf T t d))
            (pget (tradeStep T d w e u st).port t)) (closeOf T t d)
        else some 0)
      = rest.map (fun t =>
        if (rowOf T t d).isSome then
          fmul (fsub (fdiv (fmul (some w) e) (closeOf T t d)) (pget st.port t))
            (closeOf T t d)
        else some 0) := by
      apply List.map_congr_left
      intro t htr
      rw [hpg t htr]
    rw [hmap]
    have hcash : (tradeStep T d w e u st).cash
        = fsub st.cash (if (rowOf T u d).isSome then
            fmul (fsub (fdiv (fmul (some w) e) (closeOf T u d)) (pget st.port u))
              (closeOf T u d)
          else some 0) := by
      rw [tradeStep]
      split_ifs with hr
      · rfl
      · rw [fsub_zero_right]
    rw [hcash, fsub_fsub]

theorem closeOf_isSome_row (T : Trader) (t : String) (d : Int) (pt : ℚ)
    (h : closeOf T t d = some pt) : (rowOf T t d).isSome := by
  rw [closeOf] at h
  rcases hr : rowOf T t d with _ | r
  · rw [hr] at h; simp at h
  · simp

theorem liqAux_keeps_signaled (T : Trader) (d : Int) (sig : List (String × Int)) :
    ∀ (l : List String) (st : BTState) (t : String),
      (t ∈ longsOf sig ∨ t ∈ shortsOf sig) →
      alookup t (liqAux T d sig l st).port = alookup t st.port := by
  intro l
  induction l with
  | nil => intro st t _; rfl
  | cons u rest ih =>
    intro st t ht
    rw [liqAux, ih _ t ht, liqStep]
    split_ifs with hc
    · have hut : t ≠ u := by
        intro he
        rcases ht with h | h
        · exact hc.1 (he ▸ h)
        · exact hc.2.1 (he ▸ h)
      exact alookup_pdel_ne t u _ hut
    · rfl

theorem sumF_notional (T : Trader) (d : Int) (w E : ℚ) :
    ∀ (l : List String), (∀ t ∈ l, ∃ pt : ℚ, closeOf T t d = some pt ∧ 0 < pt) →
      sumF (l.map (fun t =>
        fmul (fdiv (fmul (some w) (some E)) (closeOf T t d)) (closeOf T t d)))
        = some ((l.length : ℚ) * (w * E)) := by
  intro l
  induction l with
  | nil => intro _; simp [sumF, fadd]
  | cons t rest ih =>
    intro hpx
    rcases hpx t (by simp) with ⟨pt, hpt, hpos⟩
    rw [List.map_cons, sumF_cons, ih (fun u hu => hpx u (by simp [hu])), hpt]
    rw [fmul, fdiv, if_neg (ne_of_gt hpos), fmul, fadd]
    congr 1
    push_cast
    field_simp
    ring

/-- C4 (amended): on a rebalance date each LONG ticker is set to
`(1/n_long) * equity / price` shares and each SHORT ticker to
`(-1/n_short) * equity / price`; target notionals are `equity / n` within a
side; the long notionals sum to the FULL equity and the short notionals to
minus the full equity (not to half the equity as the claim states); cash is
adjusted by minus `trade_shares * price` for every trade of a pass. -/
theorem rebalance_equal_weight_books (T : Trader) (sig : List (String × Int)) (d : Int)
    (E : ℚ) (st : BTState)
    (hndl : (longsOf sig).Nodup) (hnds : (shortsOf sig).Nodup)
    (hdisj : ∀ t, t ∈ longsOf sig → t ∉ shortsOf sig)
    (hpxl : ∀ t ∈ longsOf sig, ∃ pt : ℚ, closeOf T t d = some pt ∧ 0 < pt)
    (hpxs : ∀ t ∈ shortsOf sig, ∃ pt : ℚ, closeOf T t d = some pt ∧ 0 < pt)
    (hcur : ∀ t, t ∈ longsOf sig ∨ t ∈ shortsOf sig → ∃ cs : ℚ, pget st.port t = some cs) :
    (∀ t ∈ longsOf sig,
      alookup t (managePortfolio T sig d (some E) st).port
        = some (fdiv (fmul (some (1 / ((longsOf sig).length : ℚ))) (some E)) (closeOf T t d)))
    ∧ (∀ t ∈ shortsOf sig,
      alookup t (managePortfolio T sig d (some E) st).port
        = some (fdiv (fmul (some (-1 / ((shortsOf sig).length : ℚ))) (some E)) (closeOf T t d)))
    ∧ (∀ (n : ℚ) (pt : ℚ), pt ≠ 0 →
        fmul (fdiv (fmul (some (1 / n)) (some E)) (some pt)) (some pt) = some (E * (1 / n)))
    ∧ (longsOf sig ≠ [] →
        sumF ((longsOf sig).map (fun t =>
          fmul (fdiv (fmul (some (1 / ((longsOf sig).length : ℚ))) (some E)) (closeOf T t d))
            (closeOf T t d))) = some E)
    ∧ (shortsOf sig ≠ [] →
        sumF ((shortsOf sig).map (fun t =>
          fmul (fdiv (fmul (some (-1 / ((shortsOf sig).length : ℚ))) (some E)) (closeOf T t d))
            (closeOf T t d))) = some (-E))
    ∧ (∀ (l : List String) (w : ℚ), l.Nodup →
        (tradePass T d w (some E) l st).cash = fsub st.cash (sumF (l.map (fun t =>
          if (rowOf T t d).isSome then
            fmul (fsub (fdiv (fmul (some w) (some E)) (closeOf T t d)) (pget st.port t))
              (closeOf T t d)
          else some 0)))) := by
  have hmp : managePortfolio T sig d (some E) st
      = liqPass T d sig
          (tradePass T d (if 0 < (shortsOf sig).length then -1 / ((shortsOf sig).length : ℚ) else 0)
            (some E) (shortsOf sig)
            (tradePass T d (if 0 < (longsOf sig).length then 1 / ((longsOf sig).length : ℚ) else 0)
              (some E) (longsOf sig) st)) := rfl
  refine ⟨?_, ?_, ?_, ?_, ?_, ?_⟩
  · intro t htl
    have hnl : 0 < (longsOf sig).length := List.length_pos.mpr (List.ne_nil_of_mem htl)
    rcases hpxl t htl with ⟨pt, hpt, hpos⟩
    rcases hcur t (Or.inl htl) with ⟨cs, hcs⟩
    have hrow := closeOf_isSome_row T t d pt hpt
    rw [hmp, liqPass, liqAux_keeps_signaled T d sig _ _ t (Or.inl htl)]
    rw [tradePass_frame T d _ _ (shortsOf sig) _ t (hdisj t htl)]
    rw [tradePass_target T d _ _ (longsOf sig) hndl st t htl hrow]
    rw [if_pos hnl, hcs, hpt]
    rw [fmul, fdiv, if_neg (ne_of_gt hpos), fsub, fadd]
    congr 1
    ring
  · intro t hts
    have hns : 0 < (shortsOf sig).length := List.length_pos.mpr (List.ne_nil_of_mem hts)
    rcases hpxs t hts with ⟨pt, hpt, hpos⟩
    rcases hcur t (Or.inr hts) with ⟨cs, hcs⟩
    have hrow := closeOf_isSome_row T t d pt hpt
    have hnotl : t ∉ longsOf sig := fun hl => hdisj t hl hts
    rw [hmp, liqPass, liqAux_keeps_signaled T d sig _ _ t (Or.inr hts)]
    rw [tradePass_target T d _ _ (shortsOf sig) hnds _ t hts hrow]
    have hpg : pget (tradePass T d
        (if 0 < (longsOf sig).length then 1 / ((longsOf sig).length : ℚ) else 0)
        (some E) (longsOf sig) st).port t = pget st.port t := by
      simp only [pget]
      rw [tradePass_frame T d _ _ (longsOf sig) st t hnotl]
    rw [hpg, if_pos hns, hcs, hpt]
    rw [fmul, fdiv, if_neg (ne_of_gt hpos), fsub, fadd]
    congr 1
    ring
  · intro n pt hpt
    rw [fmul, fdiv, if_neg hpt, fmul]
    congr 1
    rw [div_mul_cancel₀ _ hpt]
    ring
  · intro hne
    have hlen : ((longsOf sig).length : ℚ) ≠ 0 :=
      Nat.cast_ne_zero.mpr (Nat.pos_iff_ne_zero.mp (List.length_pos.mpr hne))
    rw [sumF_notional T d _ E (longsOf sig) hpxl]
    congr 1
    field_simp
  · intro hne
    have hlen : ((shortsOf sig).length : ℚ) ≠ 0 :=
      Nat.cast_ne_zero.mpr (Nat.pos_iff_ne_zero.mp (List.length_pos.mpr hne))
    rw [sumF_notional T d _ E (shortsOf sig) hpxs]
    congr 1
    field_simp
    ring
  · intro l w hnd
    exact tradePass_cash T d w (some E) l hnd st

/-- C4 (counterexample): with one LONG and one SHORT ticker, price 10 and
equity 100, the rebalance buys 10 shares long (notional `10 * 10 = 100`,
the full equity), so the long book is not `0.5 * equity = 50` as claimed. -/
theorem half_book_counterexample :
    (managePortfolio liqTrader [("A", 1), ("B", -1)] 0 (some 100)
        ⟨some 100, [], []⟩).port = [("A", some 10), ("B", some (-10))]
    ∧ (10 : ℚ) * 10 = 100
    ∧ ¬ ((10 : ℚ) * 10 = (1 / 2) * 100) := by
  refine ⟨?_, by norm_num, by norm_num⟩
  simp [managePortfolio, tradePass, tradeStep, liqPass, liqAux, liqStep, longsOf, shortsOf,
    pget, pset, pdel, alookup, rowOf, dfOf, closeOf, fadd, fsub, fmul, fdiv,
    liqTrader, trivialRow]
  norm_num

/-- Concrete check of the amended rebalance theorem on a one-long,
one-short signal set. -/
theorem rebalance_equal_weight_books_witness :
    (longsOf [("A", (1 : Int)), ("B", -1)]).Nodup
    ∧ longsOf [("A", (1 : Int)), ("B", -1)] ≠ []
    ∧ alookup "A" (managePortfolio liqTrader [("A", 1), ("B", -1)] 0 (some 100)
        ⟨some 100, [], []⟩).port
      = some (fdiv (fmul (some (1 / ((longsOf [("A", (1 : Int)), ("B", -1)]).length : ℚ)))
          (some 100)) (closeOf liqTrader "A" 0))
    ∧ sumF ((longsOf [("A", (1 : Int)), ("B", -1)]).map (fun t =>
        fmul (fdiv (fmul (some (1 / ((longsOf [("A", (1 : Int)), ("B", -1)]).length : ℚ)))
          (some 100)) (closeOf liqTrader t 0)) (closeOf liqTrader t 0))) = some 100 := by
  have hpxl : ∀ t ∈ longsOf [("A", (1 : Int)), ("B", -1)],
      ∃ pt : ℚ, closeOf liqTrader t 0 = some pt ∧ 0 < pt := by
    intro t ht
    simp [longsOf] at ht
    rw [ht]
    exact ⟨10, by decide, by norm_num⟩
  have hpxs : ∀ t ∈ shortsOf [("A", (1 : Int)), ("B", -1)],
      ∃ pt : ℚ, closeOf liqTrader t 0 = some pt ∧ 0 < pt := by
    intro t ht
    simp [shortsOf] at ht
    rw [ht]
    exact ⟨10, by decide, by norm_num⟩
  have hcur : ∀ t, t ∈ longsOf [("A", (1 : Int)), ("B", -1)]
      ∨ t ∈ shortsOf [("A", (1 : Int)), ("B", -1)] →
      ∃ cs : ℚ, pget (⟨some 100, [], []⟩ : BTState).port t = some cs :=
    fun t _ => ⟨0, rfl⟩
  have h := rebalance_equal_weight_books liqTrader [("A", 1), ("B", -1)] 0 100
    ⟨some 100, [], []⟩ (by decide) (by decide) (by decide) hpxl hpxs hcur
  exact ⟨by decide, by decide, h.1 "A" (by decide), h.2.2.2.1 (by decide)⟩

/-- The three lookback windows of `trade_indicator` in declaration order,
keeping only those whose sub-backtest produced a valid Sharpe ratio. -/
def periodList (a b c : Option ℝ) : List (String × ℝ) :=
  ([(("1_month" : String), a), ("6_months", b), ("2_years", c)]).filterMap
    (fun p => p.2.map (fun s => (p.1, s)))

/-- C5: the best period is the window whose Sharpe is strictly greater than
every earlier-declared window's and at least every later one's, windows
being scanned in declaration order 1_month, 6_months, 2_years; on a full
tie the earliest window 1_month wins; with no valid window the selection is
empty (and `trade_indicator` then returns its error result, see the
error-characterization theorem). -/
theorem best_period_selection (a b c : Option ℝ) :
    (∀ s : ℝ, a = some s → b = some s → c = some s →
      selectBest (periodList a b c) = some ("1_month", s))
    ∧ (a = none → b = none → c = none → selectBest (periodList a b c) = none)
    ∧ (∀ sa : ℝ, a = some sa → (∀ sb, b = some sb → sb ≤ sa) →
        (∀ sc, c = some sc → sc ≤ sa) →
        selectBest (periodList a b c) = some ("1_month", sa))
    ∧ (∀ sb : ℝ, b = some sb → (∀ sa, a = some sa → sa < sb) →
        (∀ sc, c = some sc → sc ≤ sb) →
        selectBest (periodList a b c) = some ("6_months", sb))
    ∧ (∀ sc : ℝ, c = some sc → (∀ sa, a = some sa → sa < sc) →
        (∀ sb, b = some sb → sb < sc) →
        selectBest (periodList a b c) = some ("2_years", sc)) := by
  refine ⟨?_, ?_, ?_, ?_, ?_⟩
  · intro s ha hb hc
    subst ha; subst hb; subst hc
    simp [periodList, selectBest, selectBestAux]
  · intro ha hb hc
    subst ha; subst hb; subst hc
    rfl
  · intro sa ha hb hc
    subst ha
    rcases b with _ | sb <;> rcases c with _ | sc <;>
      simp_all [periodList, selectBest, selectBestAux, not_lt_of_ge]
  · intro sb hb ha hc
    subst hb
    rcases a with _ | sa <;> rcases c with _ | sc <;>
      simp_all [periodList, selectBest, selectBestAux, not_lt_of_ge]
  · intro sc hc ha hb
    subst hc
    rcases a with _ | sa <;> rcases b with _ | sb <;>
      simp_all [periodList, selectBest, selectBestAux]

/-- Concrete check of the tie rule: three identical Sharpe ratios select
the 1-month window. -/
theorem best_period_selection_witness :
    selectBest (periodList (some 2) (some 2) (some 2)) = some ("1_month", 2) :=
  (best_period_selection (some 2) (some 2) (some 2)).1 2 rfl rfl rfl

/-- Error-tag recognizer for results of the engine. -/
def isErr {α : Type} (x : Except String α) : Bool :=
  match x with
  | Except.error _ => true
  | Except.ok _ => false

theorem buildRecommendation_fields (T : Trader) (current ref : Int) (best : String × ℝ) :
    (buildRecommendation T current ref best).longTickers = longsOf (generateSignals T ref)
    ∧ (buildRecommendation T current ref best).shortTickers = shortsOf (generateSignals T ref)
    ∧ (buildRecommendation T current ref best).refDate = ref
    ∧ (buildRecommendation T current ref best).bestPeriod = best.1
    ∧ (buildRecommendation T current ref best).sharpe = best.2 := by
  rw [buildRecommendation]
  split_ifs <;> exact ⟨rfl, rfl, rfl, rfl, rfl⟩

/-- C3: whenever `trade_indicator` succeeds, the long and short ticker sets
of the returned recommendation come from a fresh `generate_signals` call on
the full trader at the reference day recorded in the result — not from the
winning window's recorded signals — and only the winning window's label and
Sharpe number are reported (they are exactly the best-period selection). -/
theorem positions_from_fresh_signals (T : Trader) (current : Int) :
    match tradeIndicator T current with
    | Except.ok r =>
        r.longTickers = longsOf (generateSignals T r.refDate)
        ∧ r.shortTickers = shortsOf (generateSignals T r.refDate)
        ∧ selectBestOf T r.refDate = some (r.bestPeriod, r.sharpe)
    | Except.error _ => True := by
  rw [tradeIndicator]
  split_ifs with hg
  · exact trivial
  · rcases href : refDayOf T current with _ | ref
    · exact trivial
    · dsimp only
      split_ifs with hval
      · exact trivial
      · rcases hbest : selectBestOf T ref with _ | best
        · exact trivial
        · dsimp only
          have hf := buildRecommendation_fields T current ref best
          refine ⟨?_, ?_, ?_⟩
          · rw [hf.2.2.1]
            exact hf.1
          · rw [hf.2.2.1]
            exact hf.2.1
          · rw [hf.2.2.1, hf.2.2.2.1, hf.2.2.2.2, hbest]

/-- C9: `get_pnl_stats` yields an error-tagged result exactly when fewer
than two equity points exist or the whole sequence is NaN, and
`trade_indicator` yields an error-tagged result exactly when the instance
is inert, no date exists before the target date, no ticker is priced on the
reference day, or no lookback window produced a valid stat; both functions
are total, so neither ever raises. -/
theorem error_results_characterization (eq : List F) (T : Trader) (current : Int) :
    (isErr (getPnlStats eq) = (decide (eq.length < 2) || eq.all (fun e => e.isNone)))
    ∧ (isErr (tradeIndicator T current)
        = (T.tickers.isEmpty || T.dfs.isEmpty ||
            match refDayOf T current with
            | none => true
            | some ref =>
                decide (validTickersOf T ref = []) || (selectBestOf T ref).isNone)) := by
  constructor
  · rw [getPnlStats]
    split_ifs with h1 h2
    · simp [isErr, h1]
    · simp [isErr, h1, h2]
    · simp [isErr, h1, h2]
  · rw [tradeIndicator]
    split_ifs with hg
    · simp [isErr, hg]
    · rcases href : refDayOf T current with _ | ref
      · simp [isErr, href, hg]
      · dsimp only
        split_ifs with hval
        · simp [isErr, href, hg, hval]
        · rcases hbest : selectBestOf T ref with _ | best
          · simp [isErr, href, hg, hval, hbest]
          · simp [isErr, href, hg, hval, hbest]

/-- Concrete check of the NaN fallback: a NaN close makes the computed
equity NaN and the recorded value is the literal 100000. -/
theorem nan_equity_fallback_witness :
    availOf nanCloseTrader 0 ≠ []
    ∧ computedEquity nanCloseTrader ⟨some 50000, [], []⟩ 0 = none
    ∧ (backtestStep nanCloseTrader ⟨some 50000, [], []⟩ 0).equity = [some 100000] := by
  refine ⟨by decide, by decide, ?_⟩
  have h := nan_equity_fallback nanCloseTrader ⟨some 50000, [], []⟩ 0 (by decide) (by decide)
  simpa using h
